import Mathlib

/-!
Verification of the qubit state & gate engine of the Bloch-sphere visualizer
(`app.py`): the state variable, the Bloch projector `get_bloch_vector`, the
custom-pure-state and density-matrix construction branches, the custom-unitary
check, the gate dispatch of the single-gate and sequence modes, and the
gate-sequence list operations.  Numbers are modelled over exact real/complex
arithmetic; qiskit library calls (`Statevector`, `DensityMatrix`, `Operator`,
`evolve`, `@`) are modelled by their documented linear-algebra semantics.
-/

open Matrix
open scoped ComplexConjugate

noncomputable section

/-- Type of the 2×2 complex matrices appearing in the app (density matrices,
gate matrices, qiskit operators). -/
abbrev Mat2 := Matrix (Fin 2) (Fin 2) ℂ

/-- Runtime value held in the app's `state` / `state_applied` variable: a
qiskit `Statevector` with two amplitudes, a `DensityMatrix`, or — what the
custom-gate branch `state = op @ state` actually produces — a bare qiskit
`Operator` wrapping a 2×2 matrix. -/
inductive QState where
  | sv (a b : ℂ)
  | dm (ρ : Mat2)
  | opr (m : Mat2)

/-- Bloch projector `get_bloch_vector` (app.py lines 9–21).  The
`Statevector` branch returns `[2·Re(ā·b), 2·Im(ā·b), |a|² − |b|²]`, the
`DensityMatrix` branch `[2·Re(ρ₀₁), 2·Im(ρ₁₀), Re(ρ₀₀ − ρ₁₁)]`; any other
input falls off the end of the function, returning Python `None`. -/
def get_bloch_vector : QState → Option (ℝ × ℝ × ℝ)
  | .sv a b =>
      some (2 * (conj a * b).re, 2 * (conj a * b).im,
        Complex.abs a ^ 2 - Complex.abs b ^ 2)
  | .dm ρ => some (2 * (ρ 0 1).re, 2 * (ρ 1 0).im, (ρ 0 0 - ρ 1 1).re)
  | .opr _ => none

/-- Custom Pure State branch (app.py lines 49–56): compute the Euclidean norm
`√(|a|² + |b|²)`; if it is exactly zero report the error ("Vector cannot be
zero.", modelled as `none`) and produce no state, otherwise build the
`Statevector` with both amplitudes divided by the norm. -/
def mkPureState (a b : ℂ) : Option QState :=
  let nrm := Real.sqrt (Complex.abs a ^ 2 + Complex.abs b ^ 2)
  if nrm = 0 then none
  else some (.sv (a / (nrm : ℂ)) (b / (nrm : ℂ)))

/-- Scalar form of numpy `allclose` with its default tolerances
`rtol = 1e-5`, `atol = 1e-8`: the entries are close when
`|a − b| ≤ atol + rtol·|b|`. -/
def allclose (a b : ℂ) : Prop :=
  Complex.abs (a - b) ≤ 1e-8 + 1e-5 * Complex.abs b

/-- Elementwise numpy `allclose` on 2×2 matrices. -/
def allcloseM (A B : Mat2) : Prop := ∀ i j, allclose (A i j) (B i j)

/-- Hermiticity check of the Density Matrix branch (app.py line 69):
`np.allclose(matrix, matrix.conj().T)`. -/
def is_hermitian (m : Mat2) : Prop := allcloseM m mᴴ

/-- Trace check of the Density Matrix branch (app.py lines 70–71):
`np.allclose(np.trace(matrix), 1)`. -/
def is_trace_one (m : Mat2) : Prop := allclose m.trace 1

/-- Model of `np.linalg.eigvalsh` at size 2×2: the eigenvalues, in ascending
order, of the Hermitian matrix determined by the lower triangle of the input
(the imaginary parts of the diagonal are discarded, the upper triangle is
taken to be the conjugate of the lower one). -/
def eigvalsh (m : Mat2) : ℝ × ℝ :=
  (((m 0 0).re + (m 1 1).re -
      Real.sqrt (((m 0 0).re - (m 1 1).re) ^ 2 + 4 * Complex.normSq (m 1 0))) / 2,
   ((m 0 0).re + (m 1 1).re +
      Real.sqrt (((m 0 0).re - (m 1 1).re) ^ 2 + 4 * Complex.normSq (m 1 0))) / 2)

/-- Positive-semidefiniteness check of the Density Matrix branch (app.py
lines 72–73): `np.all(eigenvals >= -1e-10)` over both eigenvalues. -/
def is_positive_semidefinite (m : Mat2) : Prop :=
  -1e-10 ≤ (eigvalsh m).1 ∧ -1e-10 ≤ (eigvalsh m).2

/-- Violations reported by the Density Matrix branch. -/
inductive DMError where
  | NotHermitian
  | TraceNotOne
  | NotPositiveSemidefinite
deriving DecidableEq

open Classical in
/-- Error reports of the Density Matrix branch (app.py lines 75–80): each of
the three failed checks is reported by its own `st.error`, independently of
the other two. -/
def dmErrors (m : Mat2) : List DMError :=
  (if is_hermitian m then [] else [DMError.NotHermitian]) ++
  (if is_trace_one m then [] else [DMError.TraceNotOne]) ++
  (if is_positive_semidefinite m then [] else [DMError.NotPositiveSemidefinite])

open Classical in
/-- Outcome of the Density Matrix branch (app.py lines 82–86): the
`DensityMatrix` state is instantiated when all three checks pass, otherwise
`state = None`. -/
def validate_density_matrix (m : Mat2) : Option QState :=
  if is_hermitian m ∧ is_trace_one m ∧ is_positive_semidefinite m
  then some (.dm m) else none

/-- Custom-unitary validation (app.py lines 124 and 175, identical in both
modes): `np.allclose(custom_matrix.conj().T @ custom_matrix, np.eye(2))`. -/
def validate_unitary (U : Mat2) : Prop := allcloseM (Uᴴ * U) 1

/-- Gates offered by both gate-application modes: the fixed selections, the
three parametric rotations with their slider angle, and the user-supplied
custom matrix. -/
inductive Gate where
  | X | Y | Z | H | S | Sdg | T | Tdg
  | RX (θ : ℝ) | RY (θ : ℝ) | RZ (θ : ℝ)
  | Custom (m : Mat2)

/-- Unitary matrix of the one-qubit circuit built for a non-custom gate
selection (app.py lines 131–142 and 210–221), with qiskit's standard gate
conventions; for `Custom` it is the user matrix wrapped in `Operator(...)`. -/
def gateMatrix : Gate → Mat2
  | .X => !![0, 1; 1, 0]
  | .Y => !![0, -Complex.I; Complex.I, 0]
  | .Z => !![1, 0; 0, -1]
  | .H => !![((Real.sqrt 2)⁻¹ : ℝ), ((Real.sqrt 2)⁻¹ : ℝ);
             ((Real.sqrt 2)⁻¹ : ℝ), (-(Real.sqrt 2)⁻¹ : ℝ)]
  | .S => !![1, 0; 0, Complex.I]
  | .Sdg => !![1, 0; 0, -Complex.I]
  | .T => !![1, 0; 0, Complex.exp (Complex.I * ((Real.pi / 4 : ℝ) : ℂ))]
  | .Tdg => !![1, 0; 0, Complex.exp (-Complex.I * ((Real.pi / 4 : ℝ) : ℂ))]
  | .RX θ => !![((Real.cos (θ / 2) : ℝ) : ℂ), -Complex.I * ((Real.sin (θ / 2) : ℝ) : ℂ);
                -Complex.I * ((Real.sin (θ / 2) : ℝ) : ℂ), ((Real.cos (θ / 2) : ℝ) : ℂ)]
  | .RY θ => !![((Real.cos (θ / 2) : ℝ) : ℂ), ((-Real.sin (θ / 2) : ℝ) : ℂ);
                ((Real.sin (θ / 2) : ℝ) : ℂ), ((Real.cos (θ / 2) : ℝ) : ℂ)]
  | .RZ θ => !![Complex.exp (-Complex.I * ((θ / 2 : ℝ) : ℂ)), 0;
                0, Complex.exp (Complex.I * ((θ / 2 : ℝ) : ℂ))]
  | .Custom m => m

/-- Rank-one density matrix `|ψ⟩⟨ψ|` built from the amplitude pair `(a, b)`,
with entries `ρᵢⱼ = ψᵢ · conj ψⱼ`.  This is both the matrix qiskit's
`Statevector.to_operator()` produces and the mixed state the spec associates
to a pure state. -/
def densityOfPure (a b : ℂ) : Mat2 :=
  !![a * conj a, a * conj b; b * conj a, b * conj b]

/-- One step of the gate-application dispatch; the single-gate branch (app.py
lines 130–149) and the body of the sequence-mode loop (lines 209–228) share
this logic verbatim.  Non-custom gates run `state.evolve(qc)`: on a
`Statevector` this is `U·ψ`, on a `DensityMatrix` it is `U·ρ·U†`, and a bare
`Operator` has no `evolve` method, so that call raises (modelled `none`).
A `Custom` gate instead runs `state = op @ state`; qiskit's `@` on an
`Operator` is matrix `dot`, which converts its argument to an operator
(a `Statevector` becomes the projector `|ψ⟩⟨ψ|`, a `DensityMatrix` its own
matrix) and returns the bare `Operator` holding the one-sided product
`U · M` — not a quantum state and not `U·ρ·U†`. -/
def applyGate (s : QState) (g : Gate) : Option QState :=
  match g, s with
  | .Custom m, .sv a b => some (.opr (m * densityOfPure a b))
  | .Custom m, .dm ρ => some (.opr (m * ρ))
  | .Custom m, .opr o => some (.opr (m * o))
  | g, .sv a b =>
      some (.sv (gateMatrix g 0 0 * a + gateMatrix g 0 1 * b)
                (gateMatrix g 1 0 * a + gateMatrix g 1 1 * b))
  | g, .dm ρ => some (.dm (gateMatrix g * ρ * (gateMatrix g)ᴴ))
  | _, .opr _ => none

/-- Sequence-mode application loop (app.py lines 208–228): starting from the
initial state, fold the gate list in index order, left to right; an exception
in any iteration aborts the whole computation. -/
def apply_sequence (s : QState) (seq : List Gate) : Option QState :=
  seq.foldl (fun acc g => acc.bind (fun st => applyGate st g)) (some s)

/-- "Add Gate" button (app.py lines 183–189): append the chosen gate (with
its parameter, if any) at the end of the session's gate sequence. -/
def addGate (seq : List Gate) (g : Gate) : List Gate := seq ++ [g]

/-- "Undo Last Gate" button (app.py lines 191–192): `pop()` the last element,
guarded by the sequence being nonempty. -/
def undoLast (seq : List Gate) : List Gate :=
  if seq.isEmpty then seq else seq.dropLast

/-- Class invariants of the spec's `QubitState`: a pure state is normalized
(`|a|² + |b|² = 1`); a mixed state is Hermitian with unit trace and positive
semidefinite (both eigenvalues nonnegative, i.e. the smaller one is).  A bare
`Operator` is not a `QubitState` and has no invariant. -/
def ValidState : QState → Prop
  | .sv a b => Complex.abs a ^ 2 + Complex.abs b ^ 2 = 1
  | .dm ρ => ρᴴ = ρ ∧ ρ.trace = 1 ∧ 0 ≤ (eigvalsh ρ).1
  | .opr _ => False

/-- Modelled from the spec (§4.2): the matrix norm used by the claimed
acceptance criterion of `validate_unitary`, the maximum absolute entry of a
2×2 matrix. -/
def maxAbsEntry (A : Mat2) : ℝ :=
  max (max (Complex.abs (A 0 0)) (Complex.abs (A 0 1)))
      (max (Complex.abs (A 1 0)) (Complex.abs (A 1 1)))

/-- Maximally mixed density matrix `ρ = diag(1/2, 1/2)`, a valid density
matrix used as concrete input. -/
def rhoHalf : Mat2 := !![((1/2 : ℝ) : ℂ), 0; 0, ((1/2 : ℝ) : ℂ)]

/-- Concrete near-unitary matrix `diag(1 + 4·10⁻⁶, 1)`: `U†U` deviates from
the identity by about `8·10⁻⁶`, far above `10⁻⁸` yet within numpy's default
`allclose` tolerance. -/
def U0 : Mat2 := !![((1 + 1/250000 : ℝ) : ℂ), 0; 0, 1]

/-- C6: for every state (pure or mixed), applying the empty gate sequence
returns the input state unchanged. -/
theorem apply_sequence_nil_id (s : QState) : apply_sequence s [] = some s := rfl

/-- C10: on an input that is neither a `Statevector` nor a `DensityMatrix`,
`get_bloch_vector` falls through all branches and returns no value (`None`);
it raises no error itself, so a caller that plots the result unguarded is the
one that fails. -/
theorem get_bloch_vector_other_none (m : Mat2) :
    get_bloch_vector (QState.opr m) = none := rfl

/-- C8: appending a gate to the sequence and then undoing (pop-last) restores
the sequence to exactly its prior list value. -/
theorem undo_after_add (seq : List Gate) (g : Gate) :
    undoLast (addGate seq g) = seq := by
  simp [undoLast, addGate]

/-- C7: the gate sequence [X, X] maps every pure state back to itself. -/
theorem apply_sequence_XX (a b : ℂ) :
    apply_sequence (QState.sv a b) [Gate.X, Gate.X] = some (QState.sv a b) := by
  simp [apply_sequence, applyGate, gateMatrix]

/-- C1: code bug in the Custom-unitary branch on Mixed states.  The branch
runs `state = op @ state` (app.py lines 145 and 224), so even for a validated
unitary such as U = X on ρ = diag(1/2, 1/2) the result is the bare qiskit
Operator holding the one-sided product `U·ρ` — whose (0,0) entry is 0 while
the conjugation `U·ρ·U†` demanded by the spec has 1/2 there — and the result
is not a quantum state at all: `get_bloch_vector` on it returns `None`. -/
theorem custom_on_mixed_not_conjugation :
    validate_unitary (gateMatrix Gate.X) ∧
    applyGate (QState.dm rhoHalf) (Gate.Custom (gateMatrix Gate.X)) =
      some (QState.opr (gateMatrix Gate.X * rhoHalf)) ∧
    (gateMatrix Gate.X * rhoHalf) 0 0 = 0 ∧
    (gateMatrix Gate.X * rhoHalf * (gateMatrix Gate.X)ᴴ) 0 0 = ((1/2 : ℝ) : ℂ) ∧
    get_bloch_vector (QState.opr (gateMatrix Gate.X * rhoHalf)) = none := by
  refine ⟨?_, rfl, ?_, ?_, rfl⟩
  · intro i j
    fin_cases i <;> fin_cases j <;>
      simp [allclose, gateMatrix, Matrix.mul_apply, Fin.sum_univ_two,
        Matrix.conjTranspose_apply, Matrix.one_apply] <;>
      norm_num
  · simp [gateMatrix, rhoHalf, Matrix.mul_apply, Fin.sum_univ_two]
  · simp [gateMatrix, rhoHalf, Matrix.mul_apply, Fin.sum_univ_two,
      Matrix.conjTranspose_apply]

/-- C2: on every state satisfying its class invariants `get_bloch_vector`
returns a 3-vector of Euclidean norm at most 1 (stated on the squared norm),
and on every normalized pure state the norm is exactly 1 — in exact
arithmetic, hence a fortiori within 1e-9. -/
theorem bloch_vector_in_unit_ball (s : QState) (h : ValidState s) :
    ∃ x y z, get_bloch_vector s = some (x, y, z) ∧
      x ^ 2 + y ^ 2 + z ^ 2 ≤ 1 ∧
      ((∃ a b, s = QState.sv a b) → x ^ 2 + y ^ 2 + z ^ 2 = 1) := by
  cases s with
  | sv a b =>
      simp only [ValidState] at h
      have key : (2 * (conj a * b).re) ^ 2 + (2 * (conj a * b).im) ^ 2 +
          (Complex.abs a ^ 2 - Complex.abs b ^ 2) ^ 2 = 1 := by
        rw [Complex.sq_abs, Complex.sq_abs] at h ⊢
        have hw : (conj a * b).re ^ 2 + (conj a * b).im ^ 2 =
            Complex.normSq a * Complex.normSq b := by
          have h2 : Complex.normSq (conj a * b) =
              Complex.normSq a * Complex.normSq b := by
            rw [Complex.normSq_mul, Complex.normSq_conj]
          rw [← h2, Complex.normSq_apply]; ring
        linear_combination 4 * hw + (Complex.normSq a + Complex.normSq b + 1) * h
      exact ⟨_, _, _, rfl, le_of_eq key, fun _ => key⟩
  | dm ρ =>
      obtain ⟨hH, hTr, hPSD⟩ := h
      refine ⟨_, _, _, rfl, ?_, ?_⟩
      · have h01 : conj (ρ 1 0) = ρ 0 1 := by
          have h := congrFun (congrFun hH 0) 1
          simpa [Matrix.conjTranspose_apply] using h
        have htr : (ρ 0 0).re + (ρ 1 1).re = 1 := by
          have h := congrArg Complex.re hTr
          rw [Matrix.trace_fin_two] at h
          simpa [Complex.add_re] using h
        have hD : (0:ℝ) ≤ ((ρ 0 0).re - (ρ 1 1).re) ^ 2 +
            4 * Complex.normSq (ρ 1 0) := by
          have := Complex.normSq_nonneg (ρ 1 0)
          positivity
        have hd1 : Real.sqrt (((ρ 0 0).re - (ρ 1 1).re) ^ 2 +
            4 * Complex.normSq (ρ 1 0)) ≤ 1 := by
          simp only [eigvalsh] at hPSD
          rw [htr] at hPSD
          linarith
        have hD1 : ((ρ 0 0).re - (ρ 1 1).re) ^ 2 +
            4 * Complex.normSq (ρ 1 0) ≤ 1 := by
          have hsq := Real.sq_sqrt hD
          have hnn := Real.sqrt_nonneg (((ρ 0 0).re - (ρ 1 1).re) ^ 2 +
            4 * Complex.normSq (ρ 1 0))
          nlinarith
        have hre : (ρ 0 1).re = (ρ 1 0).re := by rw [← h01, Complex.conj_re]
        have hns : Complex.normSq (ρ 1 0) = (ρ 1 0).re ^ 2 + (ρ 1 0).im ^ 2 := by
          rw [Complex.normSq_apply]; ring
        rw [hre, Complex.sub_re]
        nlinarith [hD1]
      · rintro ⟨a, b, hab⟩
        cases hab
  | opr m =>
      simp only [ValidState] at h

/-- C2 witness: the pure state |0⟩ satisfies the invariant and its Bloch
vector (0, 0, 1) lies on the unit sphere. -/
theorem bloch_vector_in_unit_ball_witness :
    ValidState (QState.sv 1 0) ∧
    ∃ x y z, get_bloch_vector (QState.sv 1 0) = some (x, y, z) ∧
      x ^ 2 + y ^ 2 + z ^ 2 ≤ 1 ∧
      ((∃ a b, QState.sv 1 0 = QState.sv a b) → x ^ 2 + y ^ 2 + z ^ 2 = 1) := by
  have hv : ValidState (QState.sv 1 0) := by
    simp [ValidState]
  exact ⟨hv, bloch_vector_in_unit_ball (QState.sv 1 0) hv⟩

/-- C3: constructing a custom pure state from amplitudes whose Euclidean norm
is exactly zero (that is, from the zero pair) reports the error and produces
no state; for every other pair the produced state is the input divided by its
Euclidean norm, hence satisfies |a|² + |b|² = 1. -/
theorem mkPureState_cases (a b : ℂ) :
    (a = 0 ∧ b = 0 → mkPureState a b = none) ∧
    (¬(a = 0 ∧ b = 0) →
      mkPureState a b = some (QState.sv
          (a / ((Real.sqrt (Complex.abs a ^ 2 + Complex.abs b ^ 2) : ℝ) : ℂ))
          (b / ((Real.sqrt (Complex.abs a ^ 2 + Complex.abs b ^ 2) : ℝ) : ℂ))) ∧
      Complex.abs (a / ((Real.sqrt (Complex.abs a ^ 2 + Complex.abs b ^ 2) : ℝ) : ℂ)) ^ 2 +
        Complex.abs (b / ((Real.sqrt (Complex.abs a ^ 2 + Complex.abs b ^ 2) : ℝ) : ℂ)) ^ 2
        = 1) := by
  constructor
  · rintro ⟨rfl, rfl⟩
    simp [mkPureState]
  · intro hne
    have hS : 0 < Complex.abs a ^ 2 + Complex.abs b ^ 2 := by
      rw [Complex.sq_abs, Complex.sq_abs]
      rcases eq_or_ne a 0 with rfl | ha
      · rcases eq_or_ne b 0 with rfl | hb
        · exact absurd ⟨rfl, rfl⟩ hne
        · have hb2 : 0 < Complex.normSq b := Complex.normSq_pos.mpr hb
          have ha2 : (0:ℝ) ≤ Complex.normSq 0 := Complex.normSq_nonneg 0
          linarith
      · have ha2 : 0 < Complex.normSq a := Complex.normSq_pos.mpr ha
        have hb2 : (0:ℝ) ≤ Complex.normSq b := Complex.normSq_nonneg b
        linarith
    have hsq : 0 < Real.sqrt (Complex.abs a ^ 2 + Complex.abs b ^ 2) :=
      Real.sqrt_pos.mpr hS
    constructor
    · simp only [mkPureState]
      rw [if_neg (ne_of_gt hsq)]
    · rw [map_div₀, map_div₀, Complex.abs_ofReal,
        abs_of_nonneg (Real.sqrt_nonneg _), div_pow, div_pow,
        Real.sq_sqrt (le_of_lt hS), div_add_div_same, div_self (ne_of_gt hS)]

/-- C3 witness: concrete instantiation at the nonzero pair (1, 0). -/
theorem mkPureState_cases_witness :
    mkPureState 1 0 = some (QState.sv
        (1 / ((Real.sqrt (Complex.abs (1:ℂ) ^ 2 + Complex.abs (0:ℂ) ^ 2) : ℝ) : ℂ))
        (0 / ((Real.sqrt (Complex.abs (1:ℂ) ^ 2 + Complex.abs (0:ℂ) ^ 2) : ℝ) : ℂ))) ∧
    Complex.abs (1 / ((Real.sqrt (Complex.abs (1:ℂ) ^ 2 + Complex.abs (0:ℂ) ^ 2) : ℝ) : ℂ)) ^ 2 +
      Complex.abs (0 / ((Real.sqrt (Complex.abs (1:ℂ) ^ 2 + Complex.abs (0:ℂ) ^ 2) : ℝ) : ℂ)) ^ 2
      = 1 :=
  (mkPureState_cases 1 0).2 (by simp)

/-- C9: for every normalized amplitude pair the pure-state Bloch projection
agrees with the mixed-state projection of the density matrix |ψ⟩⟨ψ| built
from the same amplitudes. -/
theorem bloch_pure_eq_bloch_mixed (a b : ℂ)
    (_h : Complex.abs a ^ 2 + Complex.abs b ^ 2 = 1) :
    get_bloch_vector (QState.sv a b) =
      get_bloch_vector (QState.dm (densityOfPure a b)) := by
  simp only [get_bloch_vector, densityOfPure, Matrix.cons_val', Matrix.cons_val_zero,
    Matrix.cons_val_one, Matrix.head_cons, Matrix.head_fin_const, Matrix.empty_val',
    Matrix.cons_val_fin_one, Matrix.of_apply, Option.some.injEq]
  refine Prod.ext ?_ (Prod.ext ?_ ?_)
  · simp only [Complex.mul_re, Complex.conj_re, Complex.conj_im]
    ring
  · simp only [Complex.mul_im, Complex.conj_re, Complex.conj_im]
    ring
  · simp only [Complex.sub_re, Complex.mul_re, Complex.conj_re, Complex.conj_im,
      Complex.sq_abs, Complex.normSq_apply]
    ring

/-- C9 witness: concrete instantiation at the normalized pair (1, 0). -/
theorem bloch_pure_eq_bloch_mixed_witness :
    get_bloch_vector (QState.sv 1 0) =
      get_bloch_vector (QState.dm (densityOfPure 1 0)) :=
  bloch_pure_eq_bloch_mixed 1 0 (by simp)

/-- C4: the three density-matrix checks are evaluated independently and every
violated constraint appears in the reported list, regardless of the other
checks (no short-circuiting); the Mixed state is instantiated exactly when
all three checks pass, wrapping the input matrix, and otherwise no state at
all is produced. -/
theorem validate_density_matrix_spec (m : Mat2) :
    (DMError.NotHermitian ∈ dmErrors m ↔ ¬ is_hermitian m) ∧
    (DMError.TraceNotOne ∈ dmErrors m ↔ ¬ is_trace_one m) ∧
    (DMError.NotPositiveSemidefinite ∈ dmErrors m ↔ ¬ is_positive_semidefinite m) ∧
    (validate_density_matrix m = some (QState.dm m) ↔
      is_hermitian m ∧ is_trace_one m ∧ is_positive_semidefinite m) ∧
    (validate_density_matrix m = none ↔
      ¬(is_hermitian m ∧ is_trace_one m ∧ is_positive_semidefinite m)) := by
  classical
  by_cases h1 : is_hermitian m <;> by_cases h2 : is_trace_one m <;>
    by_cases h3 : is_positive_semidefinite m <;>
      simp [dmErrors, validate_density_matrix, h1, h2, h3]

/-- C4 witness: the maximally mixed matrix diag(1/2, 1/2) passes all three
checks and is accepted as a Mixed state. -/
theorem validate_density_matrix_spec_witness :
    validate_density_matrix rhoHalf = some (QState.dm rhoHalf) := by
  have h1 : is_hermitian rhoHalf := by
    intro i j
    fin_cases i <;> fin_cases j <;>
      simp [allclose, rhoHalf, Matrix.conjTranspose_apply, Complex.star_def,
        Complex.conj_ofReal, Complex.abs_ofReal] <;>
      norm_num
  have h2 : is_trace_one rhoHalf := by
    have ht : Matrix.trace rhoHalf = 1 := by
      rw [Matrix.trace_fin_two]
      simp only [rhoHalf, Matrix.cons_val', Matrix.cons_val_zero, Matrix.cons_val_one,
        Matrix.head_cons, Matrix.head_fin_const, Matrix.empty_val',
        Matrix.cons_val_fin_one, Matrix.of_apply]
      push_cast
      norm_num
    simp only [is_trace_one, ht, allclose, sub_self, map_zero, AbsoluteValue.map_one,
      mul_one]
    norm_num
  have h3 : is_positive_semidefinite rhoHalf := by
    have he : eigvalsh rhoHalf = (1/2, 1/2) := by
      simp only [eigvalsh, rhoHalf, Matrix.cons_val', Matrix.cons_val_zero,
        Matrix.cons_val_one, Matrix.head_cons, Matrix.head_fin_const,
        Matrix.empty_val', Matrix.cons_val_fin_one, Matrix.of_apply,
        Complex.ofReal_re, map_zero]
      norm_num
    simp only [is_positive_semidefinite, he]
    norm_num
  exact ((validate_density_matrix_spec rhoHalf).2.2.2.1).mpr ⟨h1, h2, h3⟩

/-- C5 counterexample: the code's check `np.allclose(U†U, I)` accepts
U0 = diag(1 + 4·10⁻⁶, 1) although the maximum absolute entry of `U0†·U0 − I`
is about 8·10⁻⁶, far above 10⁻⁸ — so acceptance is not equivalent to the
claimed criterion max-absolute-entry < 1e-8. -/
theorem validate_unitary_beyond_claimed_tolerance :
    validate_unitary U0 ∧ 1e-8 ≤ maxAbsEntry (U0ᴴ * U0 - 1) := by
  have hU : U0ᴴ * U0 = !![(((1 + 1/250000 : ℝ) ^ 2 : ℝ) : ℂ), 0; 0, 1] := by
    refine Matrix.ext_iff.mp ?_
    simp only [Fin.forall_fin_two]
    refine ⟨⟨?_, ?_⟩, ?_, ?_⟩ <;>
      simp only [U0, Matrix.mul_apply, Fin.sum_univ_two, Matrix.conjTranspose_apply,
        Matrix.cons_val', Matrix.cons_val_zero, Matrix.cons_val_one, Matrix.head_cons,
        Matrix.head_fin_const, Matrix.empty_val', Matrix.cons_val_fin_one,
        Matrix.of_apply, Complex.star_def, Complex.conj_ofReal, star_zero, star_one,
        map_zero, RingHom.map_one] <;>
      push_cast <;> ring
  have ha : Complex.abs ((((1 + 1/250000 : ℝ) ^ 2 : ℝ) : ℂ) - 1)
      = (1 + 1/250000 : ℝ) ^ 2 - 1 := by
    rw [show (1 : ℂ) = ((1 : ℝ) : ℂ) by norm_num, ← Complex.ofReal_sub,
      Complex.abs_ofReal, abs_of_nonneg (by norm_num)]
  constructor
  · have key : ∀ i j, allclose
        ((!![(((1 + 1/250000 : ℝ) ^ 2 : ℝ) : ℂ), 0; 0, 1] : Mat2) i j)
        ((1 : Mat2) i j) := by
      simp only [Fin.forall_fin_two]
      refine ⟨⟨?_, ?_⟩, ?_, ?_⟩ <;>
        simp only [allclose, Matrix.cons_val', Matrix.cons_val_zero,
          Matrix.cons_val_one, Matrix.head_cons, Matrix.head_fin_const,
          Matrix.empty_val', Matrix.cons_val_fin_one, Matrix.of_apply,
          Matrix.one_apply_eq, Matrix.one_apply_ne (show (0 : Fin 2) ≠ 1 by decide),
          Matrix.one_apply_ne (show (1 : Fin 2) ≠ 0 by decide), ha, map_zero,
          AbsoluteValue.map_one, sub_zero, sub_self, mul_one, mul_zero, add_zero] <;>
        norm_num
    intro i j
    rw [hU]
    exact key i j
  · have h00 : (U0ᴴ * U0 - 1) 0 0 = (((1 + 1/250000 : ℝ) ^ 2 : ℝ) : ℂ) - 1 := by
      rw [Matrix.sub_apply, hU]
      simp [Matrix.one_apply_eq]
    refine le_trans ?_ (le_max_left _ _)
    refine le_trans ?_ (le_max_left _ _)
    rw [h00, ha]
    norm_num

/-- C5 amended: validate_unitary accepts a candidate U exactly when every
entry of U†U is within numpy's default allclose tolerance
`atol + rtol·|bᵢⱼ| = 1e-8 + 1e-5·|Iᵢⱼ|` of the corresponding identity entry —
off-diagonal magnitudes at most 1e-8 and diagonal deviations at most
1e-8 + 1e-5 — not when the maximum absolute entry of U†U − I is below 1e-8. -/
theorem validate_unitary_iff (U : Mat2) :
    validate_unitary U ↔
      (Complex.abs ((Uᴴ * U) 0 0 - 1) ≤ 1e-8 + 1e-5 ∧
       Complex.abs ((Uᴴ * U) 0 1) ≤ 1e-8 ∧
       Complex.abs ((Uᴴ * U) 1 0) ≤ 1e-8 ∧
       Complex.abs ((Uᴴ * U) 1 1 - 1) ≤ 1e-8 + 1e-5) := by
  have e01 : (1 : Mat2) 0 1 = 0 := Matrix.one_apply_ne (by decide)
  have e10 : (1 : Mat2) 1 0 = 0 := Matrix.one_apply_ne (by decide)
  simp only [validate_unitary, allcloseM, Fin.forall_fin_two, allclose,
    Matrix.one_apply_eq, e01, e10, map_zero, AbsoluteValue.map_one, mul_one,
    mul_zero, add_zero, sub_zero]
  tauto

/-- C5 amended-theorem witness: the exact identity matrix is accepted. -/
theorem validate_unitary_iff_witness : validate_unitary (1 : Mat2) := by
  refine (validate_unitary_iff 1).mpr ?_
  have hm : ((1 : Mat2)ᴴ * 1) = 1 := by simp
  have e01 : (1 : Mat2) 0 1 = 0 := Matrix.one_apply_ne (by decide)
  have e10 : (1 : Mat2) 1 0 = 0 := Matrix.one_apply_ne (by decide)
  rw [hm]
  refine ⟨?_, ?_, ?_, ?_⟩ <;>
    simp only [Matrix.one_apply_eq, e01, e10, sub_self, map_zero] <;>
    norm_num

end
